import Mathlib

/-!
Shallow embedding of the `vecmaths` library (modules `vecmaths.vectors` and
`vecmaths.rotation`).  The repository ships only its packaging script and its
test-suite; the two library modules themselves are not present, so every
definition below is modelled from the specification (spec.md §3–§4.5), faithful
to its formulas and stated conventions.  Floating-point numbers are modelled by
real numbers, so "within floating-point tolerance" statements become exact
equalities over ℝ.  Broadcast/stacked array inputs are modelled as families
indexed by an arbitrary index type, following the spec's own design note (§9)
that the broadcasting contract may be restricted to an explicit batch-map over
fixed-rank entries while preserving the pointwise-independence property.
-/

noncomputable section

namespace VecMaths

open Real Matrix
open scoped Classical

/-- A 3-component real vector (spec §3 "Vector"). -/
abbrev Vec3 := Fin 3 → ℝ

/-- A 3×3 real matrix (spec §3 "Rotation matrix" / "Box"). -/
abbrev Mat3 := Matrix (Fin 3) (Fin 3) ℝ

/-- Euclidean dot product of two 3-vectors. -/
def dotv (a b : Vec3) : ℝ := a 0 * b 0 + a 1 * b 1 + a 2 * b 2

/-- Cross product of two 3-vectors. -/
def crossv (a b : Vec3) : Vec3 :=
  ![a 1 * b 2 - a 2 * b 1, a 2 * b 0 - a 0 * b 2, a 0 * b 1 - a 1 * b 0]

/-- Euclidean norm of a 3-vector. -/
def norm3 (a : Vec3) : ℝ := Real.sqrt (dotv a a)

/-- Normalization of a 3-vector to unit length (spec §4.2: "axis is normalized
to unit length before use"). -/
def normalize3 (a : Vec3) : Vec3 := fun i => a i / norm3 a

/-- Modelled from the spec: `vecmaths.vectors.vecpair_angle` (§4.1
`angle_between`), the module being absent from the sources.  The angle between
two vectors, `arccos((a·b)/(|a||b|))`; `Real.arccos` clamps its argument to
[-1, 1], which models the spec's required clamping against floating-point
overshoot. -/
def vecpair_angle (a b : Vec3) : ℝ :=
  Real.arccos (dotv a b / (norm3 a * norm3 b))

/-- The skew-symmetric cross-product matrix K of a vector (spec §4.2). -/
def skewMat (n : Vec3) : Mat3 :=
  !![0, -n 2, n 1;
     n 2, 0, -n 0;
     -n 1, n 0, 0]

/-- Rodrigues' rotation formula `R = I + sin θ K + (1−cos θ) K²` (spec §4.2). -/
def rodriguesMat (n : Vec3) (t : ℝ) : Mat3 :=
  1 + Real.sin t • skewMat n + (1 - Real.cos t) • (skewMat n * skewMat n)

/-- Modelled from the spec: `vecmaths.rotation.axang2rotmat` (§4.2), the module
being absent from the sources.  Builds a rotation matrix from an axis and an
angle via Rodrigues' formula; the axis is normalized internally and the
`degrees` flag selects the input angle unit.  The broadcasting parameters
(`axis` position, `ndim_outer`) concern array layout only and are modelled by
the stacked variant `axang2rotmat_stack` below. -/
def axang2rotmat (rot_ax : Vec3) (ang : ℝ) (degrees : Bool) : Mat3 :=
  rodriguesMat (normalize3 rot_ax) (if degrees then ang * π / 180 else ang)

/-- The rotation angle extracted from a rotation matrix:
`θ = arccos((trace R − 1)/2)` (spec §4.2); `Real.arccos` clamps, modelling the
spec's clamping to [0, π], and its range makes the angle always non-negative. -/
def rotangle (R : Mat3) : ℝ := Real.arccos ((Matrix.trace R - 1) / 2)

/-- The (unnormalized) axis read off the skew-symmetric part `(R − Rᵗ)/2`
(spec §4.2): twice its three independent entries. -/
def skewAxis (R : Mat3) : Vec3 :=
  ![R 2 1 - R 1 2, R 0 2 - R 2 0, R 1 0 - R 0 1]

/-- The symmetric matrix `(R + I)/2` used for axis extraction at θ ≈ π
(spec §4.2). -/
def symPart (R : Mat3) : Mat3 := ((1 : ℝ) / 2) • (R + 1)

/-- Column `j` of a 3×3 matrix, as a vector. -/
def colv (B : Mat3) (j : Fin 3) : Vec3 := fun i => B i j

/-- Index of the dominant diagonal entry of a matrix (spec §4.2: "taking the
dominant diagonal column" of the symmetric part). -/
def domDiagIdx (B : Mat3) : Fin 3 :=
  if B 0 0 ≥ B 1 1 ∧ B 0 0 ≥ B 2 2 then 0 else if B 1 1 ≥ B 2 2 then 1 else 2

/-- Axis extraction for the 180° case (spec §4.2): the dominant diagonal column
of the symmetric part `(R + I)/2`, normalized. -/
def antiparAxis (R : Mat3) : Vec3 :=
  normalize3 (colv (symPart R) (domDiagIdx (symPart R)))

/-- The axis extracted from a rotation matrix (spec §4.2): from the
skew-symmetric part, scaled to unit length by `2 sin θ`, except at θ = π where
the alternative symmetric-part extraction is used.  At θ = 0 the skew part
vanishes and the conventional result is the zero vector (the spec allows any
fixed, documented convention there). -/
def rotaxis (R : Mat3) : Vec3 :=
  if rotangle R = π then antiparAxis R
  else fun i => skewAxis R i / (2 * Real.sin (rotangle R))

/-- Modelled from the spec: `vecmaths.rotation.rotmat2axang` (§4.2), the module
being absent from the sources.  Extracts (axis, angle) from a rotation matrix;
the angle is always non-negative (range of arccos) and is converted to degrees
when requested. -/
def rotmat2axang (rot_mat : Mat3) (degrees : Bool) : Vec3 × ℝ :=
  (rotaxis rot_mat, if degrees then rotangle rot_mat * 180 / π else rotangle rot_mat)

/-- A fixed choice of vector perpendicular to `a` (spec §4.3: for anti-parallel
inputs "select any vector perpendicular to `vec_a`"). -/
def perpVec (a : Vec3) : Vec3 :=
  if a 0 = 0 ∧ a 1 = 0 then ![1, 0, 0] else ![-(a 1), a 0, 0]

/-- Modelled from the spec: the single-pair core of
`vecmaths.rotation._vecpair2rotmat_stack` (§4.3), the module being absent from
the sources.  Shortest-arc rotation taking the direction of `vec_a` onto that
of `vec_b`: axis = normalized cross product, angle = angle between the vectors;
parallel degenerate pairs yield the identity, anti-parallel pairs a 180°
rotation about a chosen perpendicular of `vec_a`. -/
def vecpair2rotmat (vec_a vec_b : Vec3) : Mat3 :=
  if crossv vec_a vec_b = 0 then
    if dotv vec_a vec_b < 0 then axang2rotmat (perpVec vec_a) π false else 1
  else
    axang2rotmat (crossv vec_a vec_b) (vecpair_angle vec_a vec_b) false

/-- The 3-vector held by a (3, 1) column array (the shape in which the tests
feed single vector pairs to `_vecpair2rotmat_stack`). -/
def colVec (m : Matrix (Fin 3) (Fin 1) ℝ) : Vec3 := fun i => m i 0

/-- Modelled from the spec: `vecmaths.rotation._vecpair2rotmat_stack` (§4.3),
the module being absent from the sources.  Inputs are stacks of shape
(outer…, 3, 1) — modelled as families, indexed by the outer dimensions, of
(3, 1) column arrays — and the output is the family, indexed by the outer
dimensions alone, of the corresponding 3×3 rotation matrices. -/
def vecpair2rotmat_stack {ι : Type} (vec_a vec_b : ι → Matrix (Fin 3) (Fin 1) ℝ) :
    ι → Mat3 :=
  fun i => vecpair2rotmat (colVec (vec_a i)) (colVec (vec_b i))

/-- Modelled from the spec: the stacked form of `rotmat2axang` (§4.2), which
maps a stack of rotation matrices to the pair (axis stack, angle stack). -/
def rotmat2axang_stack {ι : Type} (rot_mat : ι → Mat3) (degrees : Bool) :
    (ι → Vec3) × (ι → ℝ) :=
  (fun i => (rotmat2axang (rot_mat i) degrees).1,
   fun i => (rotmat2axang (rot_mat i) degrees).2)

/-- Modelled from the spec: the stacked/broadcast form of `axang2rotmat`
(§4.2).  `κ` indexes the `ndim_outer` shared leading batch dimensions, `ι` the
broadcast (non-outer, non-component) dimensions; broadcasting a single axis
over many angles (or conversely) is the special case of a family constant in
`ι`. -/
def axang2rotmat_stack {κ ι : Type} (rot_ax : κ → ι → Vec3) (ang : κ → ι → ℝ)
    (degrees : Bool) : κ → ι → Mat3 :=
  fun k i => axang2rotmat (rot_ax k i) (ang k i) degrees

/-- Modelled from the spec: `vecmaths.rotation.get_random_rotation_matrix`
(§4.5), the module being absent from the sources.  Randomness is abstracted:
the sampled axes and angles are taken as arguments (a family over the requested
batch shape; the empty shape is `ι = Unit`), and each element is converted via
`axang2rotmat`. -/
def get_random_rotation_matrix {ι : Type} (rand_ax : ι → Vec3) (rand_ang : ι → ℝ) :
    ι → Mat3 :=
  fun i => axang2rotmat (rand_ax i) (rand_ang i) false

/-- The orthonormal frame built from a box's first two edge vectors
(rows: u₁ = ê₁, u₂ = u₃ × u₁, u₃ = unit (e₁ × e₂)). -/
def alignFrame (box : Mat3) : Mat3 :=
  Matrix.of fun i =>
    ![normalize3 (colv box 0),
      crossv (normalize3 (crossv (colv box 0) (colv box 1))) (normalize3 (colv box 0)),
      normalize3 (crossv (colv box 0) (colv box 1))] i

/-- Modelled from the spec: `vecmaths.rotation.align_xy` (§4.4), the module
being absent from the sources.  Re-expresses the box in a canonical
orientation by applying a single rotation to all three columns; the spec leaves
the construction to the implementer, and here the rotation is the orthonormal
frame derived from edge-1 and edge-2 (Gram–Schmidt style), one of the
constructions §4.4 names. -/
def align_xy (box : Mat3) : Mat3 := alignFrame box * box

/-- Volume of a box: magnitude of the scalar triple product of its column edge
vectors (as in the repository's volume test). -/
def boxVolume (B : Mat3) : ℝ := |dotv (crossv (colv B 0) (colv B 1)) (colv B 2)|

lemma dotv_self_nonneg (a : Vec3) : 0 ≤ dotv a a := by
  unfold dotv
  nlinarith [mul_self_nonneg (a 0), mul_self_nonneg (a 1), mul_self_nonneg (a 2)]

lemma eq_zero_of_dotv_self_eq_zero {a : Vec3} (h : dotv a a = 0) : a = 0 := by
  unfold dotv at h
  have h0 : a 0 = 0 := by
    nlinarith [mul_self_nonneg (a 0), mul_self_nonneg (a 1), mul_self_nonneg (a 2)]
  have h1 : a 1 = 0 := by
    nlinarith [mul_self_nonneg (a 0), mul_self_nonneg (a 1), mul_self_nonneg (a 2)]
  have h2 : a 2 = 0 := by
    nlinarith [mul_self_nonneg (a 0), mul_self_nonneg (a 1), mul_self_nonneg (a 2)]
  funext i
  fin_cases i <;> simp [h0, h1, h2]

lemma dotv_self_pos {a : Vec3} (h : a ≠ 0) : 0 < dotv a a := by
  rcases lt_or_eq_of_le (dotv_self_nonneg a) with hlt | heq
  · exact hlt
  · exact absurd (eq_zero_of_dotv_self_eq_zero heq.symm) h

lemma norm3_pos {a : Vec3} (h : a ≠ 0) : 0 < norm3 a :=
  Real.sqrt_pos.2 (dotv_self_pos h)

lemma norm3_sq (a : Vec3) : norm3 a ^ 2 = dotv a a :=
  Real.sq_sqrt (dotv_self_nonneg a)

lemma dotv_normalize3 {a : Vec3} (h : a ≠ 0) :
    dotv (normalize3 a) (normalize3 a) = 1 := by
  have hn := (norm3_pos h).ne'
  have hs := norm3_sq a
  unfold normalize3 dotv
  field_simp
  unfold dotv at hs
  linear_combination -hs

lemma norm3_normalize3 {a : Vec3} (h : a ≠ 0) : norm3 (normalize3 a) = 1 := by
  unfold norm3
  rw [dotv_normalize3 h, Real.sqrt_one]

lemma normalize3_of_norm_one {a : Vec3} (h : norm3 a = 1) : normalize3 a = a :=
  funext fun i => by simp [normalize3, h]

lemma dotv_of_norm_one {a : Vec3} (h : norm3 a = 1) : dotv a a = 1 := by
  have := norm3_sq a
  rw [h] at this
  simpa using this.symm

lemma rodriguesMat_eq (n : Vec3) (t : ℝ) :
    rodriguesMat n t =
      !![1 - (1 - Real.cos t) * (n 1 ^ 2 + n 2 ^ 2),
         (1 - Real.cos t) * (n 0 * n 1) - Real.sin t * n 2,
         (1 - Real.cos t) * (n 0 * n 2) + Real.sin t * n 1;
         (1 - Real.cos t) * (n 0 * n 1) + Real.sin t * n 2,
         1 - (1 - Real.cos t) * (n 0 ^ 2 + n 2 ^ 2),
         (1 - Real.cos t) * (n 1 * n 2) - Real.sin t * n 0;
         (1 - Real.cos t) * (n 0 * n 2) - Real.sin t * n 1,
         (1 - Real.cos t) * (n 1 * n 2) + Real.sin t * n 0,
         1 - (1 - Real.cos t) * (n 0 ^ 2 + n 1 ^ 2)] := by
  ext i j
  fin_cases i <;> fin_cases j <;>
    simp [rodriguesMat, skewMat, Matrix.mul_apply, Matrix.one_apply,
      Fin.sum_univ_three] <;> ring

lemma transpose_fin3 (a b c d e f g h i : ℝ) :
    (!![a, b, c; d, e, f; g, h, i])ᵀ = !![a, d, g; b, e, h; c, f, i] := by
  ext p q
  fin_cases p <;> fin_cases q <;> rfl

lemma rodriguesMat_orth (n : Vec3) (hn : dotv n n = 1) (t : ℝ) :
    rodriguesMat n t * (rodriguesMat n t)ᵀ = 1 := by
  unfold dotv at hn
  have hs := Real.sin_sq_add_cos_sq t
  rw [rodriguesMat_eq, transpose_fin3]
  ext i j
  fin_cases i <;> fin_cases j <;>
    simp [Matrix.mul_apply, Fin.sum_univ_three, Matrix.one_apply]
  · linear_combination ((1 - Real.cos t) ^ 2 * (n 1 ^ 2 + n 2 ^ 2)) * hn +
      (n 1 ^ 2 + n 2 ^ 2) * hs
  · linear_combination (-(1 - Real.cos t) ^ 2 * (n 0 * n 1)) * hn - n 0 * n 1 * hs
  · linear_combination (-(1 - Real.cos t) ^ 2 * (n 0 * n 2)) * hn - n 0 * n 2 * hs
  · linear_combination (-(1 - Real.cos t) ^ 2 * (n 0 * n 1)) * hn - n 0 * n 1 * hs
  · linear_combination ((1 - Real.cos t) ^ 2 * (n 0 ^ 2 + n 2 ^ 2)) * hn +
      (n 0 ^ 2 + n 2 ^ 2) * hs
  · linear_combination (-(1 - Real.cos t) ^ 2 * (n 1 * n 2)) * hn - n 1 * n 2 * hs
  · linear_combination (-(1 - Real.cos t) ^ 2 * (n 0 * n 2)) * hn - n 0 * n 2 * hs
  · linear_combination (-(1 - Real.cos t) ^ 2 * (n 1 * n 2)) * hn - n 1 * n 2 * hs
  · linear_combination ((1 - Real.cos t) ^ 2 * (n 0 ^ 2 + n 1 ^ 2)) * hn +
      (n 0 ^ 2 + n 1 ^ 2) * hs

lemma rodriguesMat_det (n : Vec3) (hn : dotv n n = 1) (t : ℝ) :
    (rodriguesMat n t).det = 1 := by
  unfold dotv at hn
  have hs := Real.sin_sq_add_cos_sq t
  rw [rodriguesMat_eq, Matrix.det_fin_three]
  simp
  linear_combination ((n 0 ^ 2 + n 1 ^ 2 + n 2 ^ 2) * (1 - Real.cos t) ^ 2) * hn +
    (n 0 ^ 2 + n 1 ^ 2 + n 2 ^ 2) * hs

lemma rodriguesMat_trace (n : Vec3) (hn : dotv n n = 1) (t : ℝ) :
    Matrix.trace (rodriguesMat n t) = 1 + 2 * Real.cos t := by
  unfold dotv at hn
  rw [rodriguesMat_eq, Matrix.trace_fin_three]
  simp
  linear_combination (2 * Real.cos t - 2) * hn

lemma skewAxis_rodrigues (n : Vec3) (t : ℝ) :
    skewAxis (rodriguesMat n t) = fun i => 2 * Real.sin t * n i := by
  funext i
  fin_cases i <;> simp [skewAxis, rodriguesMat_eq] <;> ring

lemma axang2rotmat_false (a : Vec3) (t : ℝ) :
    axang2rotmat a t false = rodriguesMat (normalize3 a) t := by
  simp [axang2rotmat]

lemma axang2rotmat_true (a : Vec3) (t : ℝ) :
    axang2rotmat a t true = rodriguesMat (normalize3 a) (t * π / 180) := by
  simp [axang2rotmat]

lemma rotangle_rodrigues (n : Vec3) (hn : dotv n n = 1) (t : ℝ) (h0 : 0 ≤ t)
    (h1 : t ≤ π) : rotangle (rodriguesMat n t) = t := by
  unfold rotangle
  rw [rodriguesMat_trace n hn t]
  have h2 : (1 + 2 * Real.cos t - 1) / 2 = Real.cos t := by ring
  rw [h2, Real.arccos_cos h0 h1]

lemma roundtrip_rad (a : Vec3) (t : ℝ) (ha : norm3 a = 1) (h0 : 0 < t)
    (h1 : t < π) : rotmat2axang (axang2rotmat a t false) false = (a, t) := by
  have hu : dotv a a = 1 := dotv_of_norm_one ha
  have hR : axang2rotmat a t false = rodriguesMat a t := by
    rw [axang2rotmat_false, normalize3_of_norm_one ha]
  have hang : rotangle (rodriguesMat a t) = t := rotangle_rodrigues a hu t h0.le h1.le
  have hsin : Real.sin t ≠ 0 := (Real.sin_pos_of_pos_of_lt_pi h0 h1).ne'
  have hax : rotaxis (rodriguesMat a t) = a := by
    unfold rotaxis
    rw [hang, if_neg h1.ne, skewAxis_rodrigues]
    funext i
    field_simp
  unfold rotmat2axang
  rw [hR, hax, hang]
  simp

lemma roundtrip_neg_rad (a : Vec3) (t : ℝ) (ha : norm3 a = 1) (h0 : -π < t)
    (h1 : t < 0) :
    rotmat2axang (axang2rotmat a t false) false = (fun i => -(a i), -t) := by
  have hu : dotv a a = 1 := dotv_of_norm_one ha
  have hR : axang2rotmat a t false = rodriguesMat a t := by
    rw [axang2rotmat_false, normalize3_of_norm_one ha]
  have hang : rotangle (rodriguesMat a t) = -t := by
    unfold rotangle
    rw [rodriguesMat_trace a hu t]
    have h2 : (1 + 2 * Real.cos t - 1) / 2 = Real.cos (-t) := by
      rw [Real.cos_neg]; ring
    rw [h2, Real.arccos_cos (by linarith) (by linarith)]
  have hsin : Real.sin t ≠ 0 := by
    have h3 : 0 < Real.sin (-t) :=
      Real.sin_pos_of_pos_of_lt_pi (by linarith) (by linarith)
    rw [Real.sin_neg] at h3
    linarith
  have hax : rotaxis (rodriguesMat a t) = fun i => -(a i) := by
    unfold rotaxis
    rw [hang, if_neg (show -t ≠ π by intro h; rw [← h] at h0; linarith),
      skewAxis_rodrigues]
    funext i
    rw [Real.sin_neg]
    field_simp
    ring
  unfold rotmat2axang
  rw [hR, hax, hang]
  simp

lemma norm3_neg (a : Vec3) : norm3 (fun i => -(a i)) = norm3 a := by
  unfold norm3 dotv
  congr 1
  ring

lemma normalize3_neg (a : Vec3) :
    normalize3 (fun i => -(a i)) = fun i => -(normalize3 a i) := by
  funext i
  simp [normalize3, norm3_neg, neg_div]

/-- C1: Round-trip — for every unit axis `a` and every angle strictly between
0 and π radians (equivalently between 0° and 180° when `degrees = true`),
`rotmat2axang (axang2rotmat a θ)` returns an axis whose normalization equals
`a` and an angle equal to `θ`. -/
theorem round_trip_axang_rotmat (a : Vec3) (θ : ℝ) (b : Bool)
    (ha : norm3 a = 1)
    (h0 : 0 < if b then θ * π / 180 else θ)
    (h1 : (if b then θ * π / 180 else θ) < π) :
    normalize3 (rotmat2axang (axang2rotmat a θ b) b).1 = a ∧
    (rotmat2axang (axang2rotmat a θ b) b).2 = θ := by
  cases b
  · simp only [Bool.false_eq_true, if_false] at h0 h1
    have h := roundtrip_rad a θ ha h0 h1
    have hax := congrArg Prod.fst h
    have hang := congrArg Prod.snd h
    exact ⟨by rw [hax]; exact normalize3_of_norm_one ha, hang⟩
  · simp only [if_pos] at h0 h1
    have h := roundtrip_rad a (θ * π / 180) ha h0 h1
    have hax : rotaxis (axang2rotmat a (θ * π / 180) false) = a := congrArg Prod.fst h
    have hang : rotangle (axang2rotmat a (θ * π / 180) false) = θ * π / 180 :=
      congrArg Prod.snd h
    have hR : axang2rotmat a θ true = axang2rotmat a (θ * π / 180) false := by
      simp [axang2rotmat]
    constructor
    · show normalize3 (rotaxis (axang2rotmat a θ true)) = a
      rw [hR, hax]
      exact normalize3_of_norm_one ha
    · show rotangle (axang2rotmat a θ true) * 180 / π = θ
      rw [hR, hang]
      field_simp

/-- Witness for C1 at the concrete input: unit axis (0, 0, 1), angle π/2,
radians. -/
theorem round_trip_axang_rotmat_check :
    norm3 ![0, 0, 1] = 1 ∧
    normalize3 (rotmat2axang (axang2rotmat ![0, 0, 1] (π / 2) false) false).1
      = ![0, 0, 1] ∧
    (rotmat2axang (axang2rotmat ![0, 0, 1] (π / 2) false) false).2 = π / 2 := by
  have ha : norm3 ![0, 0, 1] = 1 := by norm_num [norm3, dotv]
  have h := round_trip_axang_rotmat ![0, 0, 1] (π / 2) false ha
    (by simp [Real.pi_pos]) (by simp; linarith [Real.pi_pos])
  exact ⟨ha, h.1, h.2⟩

/-- C2: Sign convention — for every (nonzero, per the spec's data-model
invariant on rotation axes) axis `a` and every negative angle in (−π, 0),
`rotmat2axang (axang2rotmat a θ)` returns the flipped axis (the normalized
output axis is the negated normalized input axis) with the positive angle
`−θ`; and in general the angle returned by `rotmat2axang` always lies in
[0, π] (or [0°, 180°] with `degrees = true`). -/
theorem sign_convention_negative_angle (a : Vec3) (θ : ℝ) (ha : a ≠ 0)
    (h0 : -π < θ) (h1 : θ < 0) :
    (normalize3 (rotmat2axang (axang2rotmat a θ false) false).1
      = fun i => -(normalize3 a i)) ∧
    (rotmat2axang (axang2rotmat a θ false) false).2 = -θ ∧
    ∀ (R : Mat3) (b : Bool),
      0 ≤ (rotmat2axang R b).2 ∧ (rotmat2axang R b).2 ≤ (if b then 180 else π) := by
  have hnorm : norm3 (normalize3 a) = 1 := norm3_normalize3 ha
  have hRn : axang2rotmat a θ false = axang2rotmat (normalize3 a) θ false := by
    rw [axang2rotmat_false, axang2rotmat_false, normalize3_of_norm_one hnorm]
  have h := roundtrip_neg_rad (normalize3 a) θ hnorm h0 h1
  have hax := congrArg Prod.fst h
  have hang := congrArg Prod.snd h
  refine ⟨?_, ?_, ?_⟩
  · rw [hRn, hax]
    rw [normalize3_neg, normalize3_of_norm_one hnorm]
  · rw [hRn]
    exact hang
  · intro R b
    have hnn : 0 ≤ rotangle R := Real.arccos_nonneg _
    have hle : rotangle R ≤ π := Real.arccos_le_pi _
    cases b
    · simpa [rotmat2axang] using ⟨hnn, hle⟩
    · refine ⟨?_, ?_⟩
      · show 0 ≤ rotangle R * 180 / π
        positivity
      · show rotangle R * 180 / π ≤ 180
        rw [div_le_iff₀ Real.pi_pos]
        nlinarith [Real.pi_pos]

/-- Witness for C2 at the concrete input: axis (0, 0, 1), angle −π/2. -/
theorem sign_convention_negative_angle_check :
    (![0, 0, 1] : Vec3) ≠ 0 ∧
    (normalize3 (rotmat2axang (axang2rotmat ![0, 0, 1] (-(π / 2)) false) false).1
      = fun i => -(normalize3 ![0, 0, 1] i)) ∧
    (rotmat2axang (axang2rotmat ![0, 0, 1] (-(π / 2)) false) false).2 = -(-(π / 2)) ∧
    ∀ (R : Mat3) (b : Bool),
      0 ≤ (rotmat2axang R b).2 ∧ (rotmat2axang R b).2 ≤ (if b then 180 else π) := by
  have ha : (![0, 0, 1] : Vec3) ≠ 0 := by
    intro hz
    simpa using congrFun hz 2
  have h := sign_convention_negative_angle ![0, 0, 1] (-(π / 2)) ha
    (by linarith [Real.pi_pos]) (by linarith [Real.pi_pos])
  exact ⟨ha, h.1, h.2.1, h.2.2⟩

/-- C7: Zero-angle identity — for every nonzero axis and angle 0 (either
unit), `axang2rotmat` returns the identity exactly; conversely `rotmat2axang`
on the identity matrix returns angle 0. -/
theorem zero_angle_identity (a : Vec3) (b : Bool) (_ha : a ≠ 0) :
    axang2rotmat a 0 b = 1 ∧ (rotmat2axang 1 b).2 = 0 := by
  constructor
  · have h : (if b then (0 : ℝ) * π / 180 else 0) = 0 := by cases b <;> simp
    unfold axang2rotmat
    rw [h]
    unfold rodriguesMat
    simp
  · have htr : Matrix.trace (1 : Mat3) = 3 := by
      simp [Matrix.trace_fin_three]
    have hang : rotangle (1 : Mat3) = 0 := by
      unfold rotangle
      rw [htr]
      norm_num [Real.arccos_one]
    cases b <;> simp [rotmat2axang, hang]

/-- Witness for C7 at the concrete input: axis (0, 0, 1), radians. -/
theorem zero_angle_identity_check :
    (![0, 0, 1] : Vec3) ≠ 0 ∧
    (axang2rotmat ![0, 0, 1] 0 false = 1 ∧ (rotmat2axang 1 false).2 = 0) := by
  have ha : (![0, 0, 1] : Vec3) ≠ 0 := by
    intro hz
    simpa using congrFun hz 2
  exact ⟨ha, zero_angle_identity ![0, 0, 1] false ha⟩

/-- C8: Known rotation — `axang2rotmat [0,0,1] (π/2)` is the 90°-about-z
matrix [[0,−1,0],[1,0,0],[0,0,1]], and `rotmat2axang` of that matrix recovers
axis [0,0,1] and angle π/2. -/
theorem known_rotation_z90 :
    axang2rotmat ![0, 0, 1] (π / 2) false = !![0, -1, 0; 1, 0, 0; 0, 0, 1] ∧
    (rotmat2axang !![0, -1, 0; 1, 0, 0; 0, 0, 1] false).1 = ![0, 0, 1] ∧
    (rotmat2axang !![0, -1, 0; 1, 0, 0; 0, 0, 1] false).2 = π / 2 := by
  have htr : Matrix.trace (!![0, -1, 0; 1, 0, 0; 0, 0, 1] : Mat3) = 1 := by
    simp [Matrix.trace_fin_three]
  have hang : rotangle (!![0, -1, 0; 1, 0, 0; 0, 0, 1] : Mat3) = π / 2 := by
    unfold rotangle
    rw [htr]
    norm_num [Real.arccos_zero]
  refine ⟨?_, ?_, ?_⟩
  · have hn : norm3 ![0, 0, 1] = 1 := by norm_num [norm3, dotv]
    rw [axang2rotmat_false, normalize3_of_norm_one hn, rodriguesMat_eq]
    ext i j
    fin_cases i <;> fin_cases j <;>
      norm_num [Real.cos_pi_div_two, Real.sin_pi_div_two]
  · have hskew : skewAxis (!![0, -1, 0; 1, 0, 0; 0, 0, 1] : Mat3) = ![0, 0, 2] := by
      funext i
      fin_cases i <;> norm_num [skewAxis, Matrix.vecHead, Matrix.vecTail]
    show rotaxis _ = _
    unfold rotaxis
    rw [hang, if_neg (show π / 2 ≠ π by intro hh; have := Real.pi_pos; linarith)]
    funext i
    rw [hskew]
    fin_cases i <;> norm_num [Real.sin_pi_div_two]
  · simpa [rotmat2axang] using hang

lemma axang2rotmat_so3 (ax : Vec3) (t : ℝ) (b : Bool) (h : ax ≠ 0) :
    axang2rotmat ax t b * (axang2rotmat ax t b)ᵀ = 1 ∧
    (axang2rotmat ax t b).det = 1 := by
  have hu : dotv (normalize3 ax) (normalize3 ax) = 1 := dotv_normalize3 h
  unfold axang2rotmat
  exact ⟨rodriguesMat_orth _ hu _, rodriguesMat_det _ hu _⟩

lemma perpVec_ne_zero (a : Vec3) : perpVec a ≠ 0 := by
  unfold perpVec
  by_cases h : a 0 = 0 ∧ a 1 = 0
  · rw [if_pos h]
    intro hz
    simpa using congrFun hz 0
  · rw [if_neg h]
    intro hz
    by_cases h0 : a 0 = 0
    · have h1 : a 1 ≠ 0 := fun hh => h ⟨h0, hh⟩
      have h2 := congrFun hz 0
      simp at h2
      exact h1 h2
    · have h2 := congrFun hz 1
      simp at h2
      exact h0 h2

lemma vecpair2rotmat_so3 (a b : Vec3) :
    vecpair2rotmat a b * (vecpair2rotmat a b)ᵀ = 1 ∧
    (vecpair2rotmat a b).det = 1 := by
  unfold vecpair2rotmat
  by_cases hc : crossv a b = 0
  · rw [if_pos hc]
    by_cases hd : dotv a b < 0
    · rw [if_pos hd]
      exact axang2rotmat_so3 _ _ _ (perpVec_ne_zero a)
    · rw [if_neg hd]
      exact ⟨by rw [Matrix.transpose_one, mul_one], Matrix.det_one⟩
  · rw [if_neg hc]
    exact axang2rotmat_so3 _ _ _ hc

/-- C6: SO(3) validity invariant — every rotation matrix returned by the
library's matrix-producing operations satisfies R·Rᵀ = I and det R = 1: every
element of every `get_random_rotation_matrix` batch (randomness abstracted as
the sampled nonzero axes and angles; any batch shape `ι` including the empty
shape `ι = Unit`), `axang2rotmat` on every nonzero axis, and the vector-pair
conversion on every input pair. -/
theorem random_rotation_so3 :
    (∀ (ι : Type) (rand_ax : ι → Vec3) (rand_ang : ι → ℝ),
      (∀ i, rand_ax i ≠ 0) → ∀ i : ι,
      get_random_rotation_matrix rand_ax rand_ang i *
        (get_random_rotation_matrix rand_ax rand_ang i)ᵀ = 1 ∧
      (get_random_rotation_matrix rand_ax rand_ang i).det = 1) ∧
    (∀ (ax : Vec3) (t : ℝ) (b : Bool), ax ≠ 0 →
      axang2rotmat ax t b * (axang2rotmat ax t b)ᵀ = 1 ∧
      (axang2rotmat ax t b).det = 1) ∧
    (∀ a b : Vec3,
      vecpair2rotmat a b * (vecpair2rotmat a b)ᵀ = 1 ∧
      (vecpair2rotmat a b).det = 1) :=
  ⟨fun _ _ _ h i => axang2rotmat_so3 _ _ false (h i),
   fun ax t b h => axang2rotmat_so3 ax t b h,
   vecpair2rotmat_so3⟩

/-- Witness for C6 at the concrete input: the empty batch shape (a single
matrix), axis (0, 0, 1), angle 0. -/
theorem random_rotation_so3_check :
    (∀ i : Unit, (fun _ : Unit => (![0, 0, 1] : Vec3)) i ≠ 0) ∧
    (get_random_rotation_matrix (fun _ : Unit => ![0, 0, 1]) (fun _ => 0) () *
      (get_random_rotation_matrix (fun _ : Unit => ![0, 0, 1]) (fun _ => 0) ())ᵀ = 1 ∧
    (get_random_rotation_matrix (fun _ : Unit => ![0, 0, 1]) (fun _ => 0) ()).det = 1) := by
  have h : ∀ i : Unit, (fun _ : Unit => (![0, 0, 1] : Vec3)) i ≠ 0 := by
    intro i hz
    simpa using congrFun hz 2
  exact ⟨h, random_rotation_so3.1 Unit _ _ h ()⟩

/-- C3: Anti-parallel degeneracy — for the pair (0,0,1), (0,0,−1) supplied in
the (3, 1)-column stack layout, `_vecpair2rotmat_stack` returns the explicit
finite matrix diag(1, −1, −1) (in particular no undefined/NaN entries arise:
the degenerate branch avoids the vanishing cross product), that matrix is a
valid rotation (R·Rᵀ = I), and `rotmat2axang` recovers an angle of 180°. -/
theorem antiparallel_pair_valid :
    vecpair2rotmat_stack
        (fun _ : Fin 1 => Matrix.of fun i (_ : Fin 1) => (![0, 0, 1] : Vec3) i)
        (fun _ : Fin 1 => Matrix.of fun i (_ : Fin 1) => (![0, 0, -1] : Vec3) i) 0
      = !![1, 0, 0; 0, -1, 0; 0, 0, -1] ∧
    (!![1, 0, 0; 0, -1, 0; 0, 0, -1] : Mat3) *
      (!![1, 0, 0; 0, -1, 0; 0, 0, -1] : Mat3)ᵀ = 1 ∧
    (rotmat2axang !![1, 0, 0; 0, -1, 0; 0, 0, -1] true).2 = 180 := by
  have hcross : crossv ![0, 0, 1] ![0, 0, -1] = 0 := by
    funext i
    fin_cases i <;> norm_num [crossv, Matrix.vecHead, Matrix.vecTail]
  have hdot : dotv ![0, 0, 1] ![0, 0, -1] < 0 := by
    norm_num [dotv, Matrix.vecHead, Matrix.vecTail]
  have hperp : perpVec ![0, 0, 1] = ![1, 0, 0] := by
    norm_num [perpVec, Matrix.vecHead, Matrix.vecTail]
  have hval : axang2rotmat ![1, 0, 0] π false = !![1, 0, 0; 0, -1, 0; 0, 0, -1] := by
    have hn : norm3 ![1, 0, 0] = 1 := by
      norm_num [norm3, dotv, Matrix.vecHead, Matrix.vecTail]
    rw [axang2rotmat_false, normalize3_of_norm_one hn, rodriguesMat_eq]
    ext i j
    fin_cases i <;> fin_cases j <;>
      norm_num [Real.cos_pi, Real.sin_pi, Matrix.vecHead, Matrix.vecTail]
  have htr : Matrix.trace (!![1, 0, 0; 0, -1, 0; 0, 0, -1] : Mat3) = -1 := by
    simp [Matrix.trace_fin_three, Matrix.vecHead, Matrix.vecTail]
  have hang : rotangle (!![1, 0, 0; 0, -1, 0; 0, 0, -1] : Mat3) = π := by
    unfold rotangle
    rw [htr]
    norm_num [Real.arccos_neg_one]
  refine ⟨?_, ?_, ?_⟩
  · show vecpair2rotmat ![0, 0, 1] ![0, 0, -1] = _
    unfold vecpair2rotmat
    rw [if_pos hcross, if_pos hdot, hperp, hval]
  · rw [transpose_fin3]
    ext i j
    fin_cases i <;> fin_cases j <;>
      norm_num [Matrix.mul_apply, Fin.sum_univ_three, Matrix.one_apply,
        Matrix.vecHead, Matrix.vecTail, Fin.ext_iff]
  · show rotangle _ * 180 / π = 180
    rw [hang]
    field_simp

/-- C4: Pointwise independence of all stacked and broadcast operations — the
output of `rotmat2axang` on a stack, of `axang2rotmat` with broadcast/outer
batch dimensions, and of `_vecpair2rotmat_stack` on a stack of vector pairs,
at every valid batch index, equals the output of the same operation applied to
just that index's slice; no cross-talk between batch elements. -/
theorem stack_pointwise_independence :
    (∀ (ι : Type) (rot_mat : ι → Mat3) (b : Bool) (i : ι),
      (rotmat2axang_stack rot_mat b).1 i = (rotmat2axang (rot_mat i) b).1 ∧
      (rotmat2axang_stack rot_mat b).2 i = (rotmat2axang (rot_mat i) b).2) ∧
    (∀ (κ ι : Type) (rot_ax : κ → ι → Vec3) (ang : κ → ι → ℝ) (b : Bool)
      (k : κ) (i : ι),
      axang2rotmat_stack rot_ax ang b k i = axang2rotmat (rot_ax k i) (ang k i) b) ∧
    (∀ (ι : Type) (vec_a vec_b : ι → Matrix (Fin 3) (Fin 1) ℝ) (i : ι),
      vecpair2rotmat_stack vec_a vec_b i
        = vecpair2rotmat_stack (fun _ : Unit => vec_a i) (fun _ : Unit => vec_b i) ()) :=
  ⟨fun _ _ _ _ => ⟨rfl, rfl⟩, fun _ _ _ _ _ _ _ => rfl, fun _ _ _ _ => rfl⟩

/-- C10: Interface convention of `_vecpair2rotmat_stack` — inputs carry the
3-component dimension second-to-last with a trailing stack dimension (families
of (3, 1) column arrays, indexed by the outer dimensions), and the output at
an outer index is the single 3×3 rotation matrix computed from that index's
column slices. -/
theorem vecpair_stack_interface (ι : Type)
    (vec_a vec_b : ι → Matrix (Fin 3) (Fin 1) ℝ) (i : ι) :
    vecpair2rotmat_stack vec_a vec_b i
      = vecpair2rotmat (fun r => vec_a i r 0) (fun r => vec_b i r 0) := rfl

lemma norm3_smul {k : ℝ} (hk : 0 ≤ k) (a : Vec3) : norm3 (k • a) = k * norm3 a := by
  have hd : dotv (k • a) (k • a) = k ^ 2 * dotv a a := by
    simp [dotv]
    ring
  rw [norm3, hd, Real.sqrt_mul (sq_nonneg k), Real.sqrt_sq hk, norm3]

lemma normalize3_smul {k : ℝ} (hk : 0 < k) (a : Vec3) :
    normalize3 (k • a) = normalize3 a := by
  funext i
  show (k • a) i / norm3 (k • a) = a i / norm3 a
  rw [norm3_smul hk.le, Pi.smul_apply, smul_eq_mul]
  exact mul_div_mul_left _ _ hk.ne'

lemma axang2rotmat_smul {k : ℝ} (hk : 0 < k) (v : Vec3) (t : ℝ) (b : Bool) :
    axang2rotmat (k • v) t b = axang2rotmat v t b := by
  unfold axang2rotmat
  rw [normalize3_smul hk]

lemma crossv_smul (a b : Vec3) (k1 k2 : ℝ) :
    crossv (k1 • a) (k2 • b) = (k1 * k2) • crossv a b := by
  funext i
  fin_cases i <;>
    simp [crossv, Matrix.vecHead, Matrix.vecTail] <;> ring

lemma dotv_smul (a b : Vec3) (k1 k2 : ℝ) :
    dotv (k1 • a) (k2 • b) = (k1 * k2) * dotv a b := by
  simp [dotv]
  ring

lemma vecpair_angle_smul (a b : Vec3) {k1 k2 : ℝ} (hk1 : 0 < k1) (hk2 : 0 < k2) :
    vecpair_angle (k1 • a) (k2 • b) = vecpair_angle a b := by
  unfold vecpair_angle
  congr 1
  rw [norm3_smul hk1.le, norm3_smul hk2.le, dotv_smul,
    show k1 * norm3 a * (k2 * norm3 b) = (k1 * k2) * (norm3 a * norm3 b) by ring]
  exact mul_div_mul_left _ _ (by positivity)

lemma perpVec_axang_smul (a : Vec3) {k : ℝ} (hk : 0 < k) :
    axang2rotmat (perpVec (k • a)) π false = axang2rotmat (perpVec a) π false := by
  unfold perpVec
  by_cases h : a 0 = 0 ∧ a 1 = 0
  · rw [if_pos h, if_pos (show (k • a) 0 = 0 ∧ (k • a) 1 = 0 by
      simp [h.1, h.2])]
  · have hcond : ¬((k • a) 0 = 0 ∧ (k • a) 1 = 0) := by
      rintro ⟨h0, h1⟩
      rw [Pi.smul_apply, smul_eq_mul] at h0 h1
      refine h ⟨?_, ?_⟩
      · rcases mul_eq_zero.mp h0 with h' | h'
        · exact absurd h' hk.ne'
        · exact h'
      · rcases mul_eq_zero.mp h1 with h' | h'
        · exact absurd h' hk.ne'
        · exact h'
    rw [if_neg h, if_neg hcond]
    have hv : (![-((k • a) 1), (k • a) 0, 0] : Vec3) = k • ![-(a 1), a 0, 0] := by
      funext i
      fin_cases i <;> simp [Matrix.vecHead, Matrix.vecTail]
    rw [hv, axang2rotmat_smul hk]

/-- C9: Scale invariance — `_vecpair2rotmat_stack`'s single-pair computation
gives identical results for (a, b) and (k₁·a, k₂·b) for all positive scalars
k₁, k₂ and nonzero vectors a, b: it depends only on the two directions. -/
theorem vecpair_scale_invariance (a b : Vec3) (k1 k2 : ℝ)
    (_ha : a ≠ 0) (_hb : b ≠ 0) (hk1 : 0 < k1) (hk2 : 0 < k2) :
    vecpair2rotmat (k1 • a) (k2 • b) = vecpair2rotmat a b := by
  have hk12 : (0 : ℝ) < k1 * k2 := mul_pos hk1 hk2
  unfold vecpair2rotmat
  rw [crossv_smul, dotv_smul]
  by_cases hc : crossv a b = 0
  · rw [hc, smul_zero, if_pos rfl, if_pos rfl]
    by_cases hd : dotv a b < 0
    · rw [if_pos hd, if_pos (by nlinarith), perpVec_axang_smul a hk1]
    · rw [if_neg hd, if_neg (by intro hh; exact hd (by nlinarith))]
  · rw [if_neg (by simpa [smul_eq_zero, hk12.ne'] using hc), if_neg hc,
      vecpair_angle_smul a b hk1 hk2, axang2rotmat_smul hk12]

/-- Witness for C9 at the concrete input: a = (0, 0, 1), b = (0, 1, 0),
k₁ = 2, k₂ = 3. -/
theorem vecpair_scale_invariance_check :
    (![0, 0, 1] : Vec3) ≠ 0 ∧ (![0, 1, 0] : Vec3) ≠ 0 ∧
    (0 : ℝ) < 2 ∧ (0 : ℝ) < 3 ∧
    vecpair2rotmat ((2 : ℝ) • ![0, 0, 1]) ((3 : ℝ) • ![0, 1, 0])
      = vecpair2rotmat ![0, 0, 1] ![0, 1, 0] := by
  have ha : (![0, 0, 1] : Vec3) ≠ 0 := by
    intro hz
    simpa using congrFun hz 2
  have hb : (![0, 1, 0] : Vec3) ≠ 0 := by
    intro hz
    simpa using congrFun hz 1
  exact ⟨ha, hb, by norm_num, by norm_num,
    vecpair_scale_invariance ![0, 0, 1] ![0, 1, 0] 2 3 ha hb (by norm_num) (by norm_num)⟩

lemma crossv_a0 (a b : Vec3) : crossv a b 0 = a 1 * b 2 - a 2 * b 1 := rfl

lemma crossv_a1 (a b : Vec3) : crossv a b 1 = a 2 * b 0 - a 0 * b 2 := rfl

lemma crossv_a2 (a b : Vec3) : crossv a b 2 = a 0 * b 1 - a 1 * b 0 := rfl

lemma dotv_comm (a b : Vec3) : dotv a b = dotv b a := by
  unfold dotv
  ring

lemma dotv_crossv_self_left (x y : Vec3) : dotv x (crossv x y) = 0 := by
  unfold dotv
  rw [crossv_a0, crossv_a1, crossv_a2]
  ring

lemma dotv_crossv_self_right (x y : Vec3) : dotv y (crossv x y) = 0 := by
  unfold dotv
  rw [crossv_a0, crossv_a1, crossv_a2]
  ring

lemma lagrange_identity (x y : Vec3) :
    dotv (crossv x y) (crossv x y) = dotv x x * dotv y y - (dotv x y) ^ 2 := by
  unfold dotv
  rw [crossv_a0, crossv_a1, crossv_a2]
  ring

lemma triple_eq_det (B : Mat3) :
    dotv (crossv (colv B 0) (colv B 1)) (colv B 2) = B.det := by
  rw [Matrix.det_fin_three]
  unfold dotv colv
  rw [crossv_a0, crossv_a1, crossv_a2]
  ring

lemma dotv_normalize3_mul (a b : Vec3) (ha : norm3 a ≠ 0) (hb : norm3 b ≠ 0) :
    dotv (normalize3 a) (normalize3 b) = dotv a b / (norm3 a * norm3 b) := by
  unfold dotv normalize3
  field_simp

lemma mul_transpose_apply (U : Mat3) (i j : Fin 3) :
    (U * Uᵀ) i j = dotv (fun k => U i k) (fun k => U j k) := by
  simp [Matrix.mul_apply, dotv, Fin.sum_univ_three]

lemma alignFrame_orth (box : Mat3)
    (h1 : colv box 0 ≠ 0) (hc : crossv (colv box 0) (colv box 1) ≠ 0) :
    alignFrame box * (alignFrame box)ᵀ = 1 := by
  have hn1 : norm3 (colv box 0) ≠ 0 := (norm3_pos h1).ne'
  have hn3 : norm3 (crossv (colv box 0) (colv box 1)) ≠ 0 := (norm3_pos hc).ne'
  have d11 : dotv (normalize3 (colv box 0)) (normalize3 (colv box 0)) = 1 :=
    dotv_normalize3 h1
  have d33 : dotv (normalize3 (crossv (colv box 0) (colv box 1)))
      (normalize3 (crossv (colv box 0) (colv box 1))) = 1 := dotv_normalize3 hc
  have d13 : dotv (normalize3 (colv box 0))
      (normalize3 (crossv (colv box 0) (colv box 1))) = 0 := by
    rw [dotv_normalize3_mul _ _ hn1 hn3, dotv_crossv_self_left, zero_div]
  have d31 : dotv (normalize3 (crossv (colv box 0) (colv box 1)))
      (normalize3 (colv box 0)) = 0 := by
    rw [dotv_comm]
    exact d13
  ext i j
  rw [mul_transpose_apply]
  fin_cases i <;> fin_cases j
  · exact d11
  · exact dotv_crossv_self_right (normalize3 (crossv (colv box 0) (colv box 1)))
      (normalize3 (colv box 0))
  · exact d13
  · rw [dotv_comm]
    exact dotv_crossv_self_right (normalize3 (crossv (colv box 0) (colv box 1)))
      (normalize3 (colv box 0))
  · have h22 : dotv
        (crossv (normalize3 (crossv (colv box 0) (colv box 1))) (normalize3 (colv box 0)))
        (crossv (normalize3 (crossv (colv box 0) (colv box 1))) (normalize3 (colv box 0)))
        = 1 := by
      rw [lagrange_identity, d11, d33, d31]
      norm_num
    exact h22
  · rw [dotv_comm]
    exact dotv_crossv_self_left (normalize3 (crossv (colv box 0) (colv box 1)))
      (normalize3 (colv box 0))
  · rw [dotv_comm]
    exact d13
  · exact dotv_crossv_self_left (normalize3 (crossv (colv box 0) (colv box 1)))
      (normalize3 (colv box 0))
  · exact d33

lemma dotv_mulVec_preserved (U : Mat3) (h : Uᵀ * U = 1) (v w : Vec3) :
    dotv (U.mulVec v) (U.mulVec w) = dotv v w := by
  have g00 := congrFun (congrFun h 0) 0
  have g01 := congrFun (congrFun h 0) 1
  have g02 := congrFun (congrFun h 0) 2
  have g10 := congrFun (congrFun h 1) 0
  have g11 := congrFun (congrFun h 1) 1
  have g12 := congrFun (congrFun h 1) 2
  have g20 := congrFun (congrFun h 2) 0
  have g21 := congrFun (congrFun h 2) 1
  have g22 := congrFun (congrFun h 2) 2
  simp only [Matrix.mul_apply, Fin.sum_univ_three, Matrix.transpose_apply,
    Matrix.one_apply, Fin.ext_iff] at g00 g01 g02 g10 g11 g12 g20 g21 g22
  norm_num at g00 g01 g02 g10 g11 g12 g20 g21 g22
  simp only [dotv, Matrix.mulVec, Matrix.dotProduct, Fin.sum_univ_three]
  linear_combination (v 0 * w 0) * g00 + (v 0 * w 1) * g01 + (v 0 * w 2) * g02 +
    (v 1 * w 0) * g10 + (v 1 * w 1) * g11 + (v 1 * w 2) * g12 +
    (v 2 * w 0) * g20 + (v 2 * w 1) * g21 + (v 2 * w 2) * g22

lemma colv_mul (U B : Mat3) (j : Fin 3) :
    colv (U * B) j = U.mulVec (colv B j) := by
  funext i
  simp [colv, Matrix.mul_apply, Matrix.mulVec, Matrix.dotProduct,
    Fin.sum_univ_three]

lemma align_xy_zero_10 (box : Mat3) : align_xy box 1 0 = 0 := by
  show (alignFrame box * box) 1 0 = 0
  simp [Matrix.mul_apply, Fin.sum_univ_three, alignFrame, normalize3, crossv,
    colv, Matrix.vecHead, Matrix.vecTail]
  ring

lemma align_xy_zero_20 (box : Mat3) : align_xy box 2 0 = 0 := by
  show (alignFrame box * box) 2 0 = 0
  simp [Matrix.mul_apply, Fin.sum_univ_three, alignFrame, normalize3, crossv,
    colv, Matrix.vecHead, Matrix.vecTail]
  ring

lemma align_xy_zero_21 (box : Mat3) : align_xy box 2 1 = 0 := by
  show (alignFrame box * box) 2 1 = 0
  simp [Matrix.mul_apply, Fin.sum_univ_three, alignFrame, normalize3, crossv,
    colv, Matrix.vecHead, Matrix.vecTail]
  ring

/-- C5: Box alignment contract — for every nonsingular box, `align_xy` returns
a box whose entries (1,0), (2,0) (edge-1's y and z components) and (2,1)
(edge-2's z component) are zero, and whose volume (scalar triple product
magnitude), column edge lengths, and pairwise internal angles all equal those
of the input box. -/
theorem align_xy_contract (box : Mat3) (h : box.det ≠ 0) :
    align_xy box 1 0 = 0 ∧ align_xy box 2 0 = 0 ∧ align_xy box 2 1 = 0 ∧
    boxVolume (align_xy box) = boxVolume box ∧
    (∀ j : Fin 3, norm3 (colv (align_xy box) j) = norm3 (colv box j)) ∧
    (∀ j k : Fin 3, vecpair_angle (colv (align_xy box) j) (colv (align_xy box) k)
      = vecpair_angle (colv box j) (colv box k)) := by
  have hcne : crossv (colv box 0) (colv box 1) ≠ 0 := by
    intro hz
    apply h
    rw [← triple_eq_det box, hz]
    simp [dotv]
  have he1 : colv box 0 ≠ 0 := by
    intro hz
    apply hcne
    rw [hz]
    funext i
    fin_cases i <;> simp [crossv, Matrix.vecHead, Matrix.vecTail]
  have horth := alignFrame_orth box he1 hcne
  have hUtU : (alignFrame box)ᵀ * alignFrame box = 1 := Matrix.mul_eq_one_comm.mp horth
  have hdotp : ∀ v w : Vec3,
      dotv ((alignFrame box).mulVec v) ((alignFrame box).mulVec w) = dotv v w :=
    dotv_mulVec_preserved _ hUtU
  have hcol : ∀ j : Fin 3,
      colv (align_xy box) j = (alignFrame box).mulVec (colv box j) :=
    fun j => colv_mul _ _ j
  have hnorm : ∀ j : Fin 3, norm3 (colv (align_xy box) j) = norm3 (colv box j) := by
    intro j
    unfold norm3
    rw [hcol j, hdotp]
  have hdotcols : ∀ j k : Fin 3,
      dotv (colv (align_xy box) j) (colv (align_xy box) k)
        = dotv (colv box j) (colv box k) := by
    intro j k
    rw [hcol j, hcol k, hdotp]
  refine ⟨align_xy_zero_10 box, align_xy_zero_20 box, align_xy_zero_21 box,
    ?_, hnorm, ?_⟩
  · have hdet2 : (alignFrame box).det ^ 2 = 1 := by
      have hh := congrArg Matrix.det horth
      rwa [Matrix.det_mul, Matrix.det_transpose, Matrix.det_one, ← sq] at hh
    have habs : |(alignFrame box).det| = 1 := by
      have h3 : ((alignFrame box).det - 1) * ((alignFrame box).det + 1) = 0 := by
        linear_combination hdet2
      rcases mul_eq_zero.mp h3 with h4 | h4
      · rw [show (alignFrame box).det = 1 by linarith]
        norm_num
      · rw [show (alignFrame box).det = -1 by linarith]
        norm_num
    unfold boxVolume
    rw [triple_eq_det, triple_eq_det]
    show |(alignFrame box * box).det| = _
    rw [Matrix.det_mul, abs_mul, habs, one_mul]
  · intro j k
    unfold vecpair_angle
    rw [hnorm j, hnorm k, hdotcols j k]

/-- Witness for C5 at the concrete input: the identity box. -/
theorem align_xy_contract_check :
    (1 : Mat3).det ≠ 0 ∧
    (align_xy 1 1 0 = 0 ∧ align_xy 1 2 0 = 0 ∧ align_xy 1 2 1 = 0 ∧
     boxVolume (align_xy 1) = boxVolume 1 ∧
     (∀ j : Fin 3, norm3 (colv (align_xy 1) j) = norm3 (colv 1 j)) ∧
     (∀ j k : Fin 3, vecpair_angle (colv (align_xy 1) j) (colv (align_xy 1) k)
       = vecpair_angle (colv 1 j) (colv 1 k))) := by
  have h : (1 : Mat3).det ≠ 0 := by norm_num [Matrix.det_one]
  exact ⟨h, align_xy_contract 1 h⟩

end VecMaths
